import Mathlib

/-!
Shallow embedding of `jobnotify.py`, a single-run job-search pipeline:
query a search API per fixed query string, extract normalized records,
deduplicate by URL, write a CSV, and send a report email.

Python dictionaries `{"title": ..., "url": ..., "snippet": ...}` whose values
are strings or `None` are modelled as a structure of `Option String` fields.
File contents are modelled as `List Char`.  The effects of `main` (network
calls, the printed log lines, the CSV write and the email send) are modelled
as an explicit trace of `Effect`s; the search provider is a parameter
`search : String → Except String SearchJson` standing for `google_search`,
whose failure (`requests` exception / `raise_for_status`) is the `.error`
case.
-/

/-- A normalized search result, `extract_results`' dictionary
`{"title": item.get("title"), "url": item.get("link"), "snippet": item.get("snippet")}`.
`none` models a Python `None` value. -/
structure JobRecord where
  title : Option String
  url : Option String
  snippet : Option String
deriving DecidableEq

/-- Python truthiness of an optional string: `None` and `""` are falsy. -/
def truthy : Option String → Bool
  | none => false
  | some s => s ≠ ""

/-- The loop of `dedupe`: `seen` is the set of already-seen URL keys
(modelled as a list), and a record is appended to the output only when
`key = r.get("url")` is truthy (non-`None`, non-empty) and not in `seen`,
in which case the key is added to `seen`. -/
def dedupeGo (seen : List String) : List JobRecord → List JobRecord
  | [] => []
  | r :: rs =>
    match r.url with
    | none => dedupeGo seen rs
    | some k =>
      if k ≠ "" ∧ k ∉ seen then r :: dedupeGo (k :: seen) rs
      else dedupeGo seen rs

/-- `dedupe(results)` from the source: single pass with an initially empty
`seen` set. -/
def dedupe (results : List JobRecord) : List JobRecord :=
  dedupeGo [] results

/-- One raw result item of the provider's JSON `items` list: the fields
`title`, `link`, `snippet` read with `item.get(...)`, each possibly absent. -/
structure RawItem where
  title : Option String
  link : Option String
  snippet : Option String
deriving DecidableEq

/-- A parsed search response: only the top-level `items` list matters to the
program; `none` models a response without an `items` key
(`search_json.get("items", [])` then yields `[]`). -/
structure SearchJson where
  items : Option (List RawItem)
deriving DecidableEq

/-- `extract_results(search_json)`: map each item of `items` (default `[]`)
to a JobRecord from its `title`/`link`/`snippet` fields. -/
def extract_results (search_json : SearchJson) : List JobRecord :=
  (search_json.items.getD []).map fun item => ⟨item.title, item.link, item.snippet⟩

/-! ### CSV writing (`save_csv`)

`csv.DictWriter` with `fieldnames=["title","url","snippet"]` writes a header
row and one row per record, quoting in the default QUOTE_MINIMAL style: a
field is quoted exactly when it contains the delimiter `,`, the quote char
`"`, or a line-terminator character (`\r` or `\n`); inside a quoted field a
quote char is doubled.  A `None` value is written as the empty field.  Rows
are terminated by `\r\n` (the writer's default line terminator, passed
through unchanged because the file is opened with `newline=""`).  The file
content is modelled as a `List Char`. -/

/-- Characters that force QUOTE_MINIMAL quoting of a CSV field. -/
def specialChar (c : Char) : Bool :=
  c == ',' || c == '"' || c == '\r' || c == '\n'

/-- Whether a field must be quoted. -/
def needsQuote (f : List Char) : Bool := f.any specialChar

/-- Double every quote character of a field body. -/
def doubleQuotes : List Char → List Char
  | [] => []
  | c :: cs => if c = '"' then '"' :: '"' :: doubleQuotes cs else c :: doubleQuotes cs

/-- Render one field, quoting it when needed. -/
def escapeField (f : List Char) : List Char :=
  if needsQuote f then '"' :: (doubleQuotes f ++ ['"']) else f

/-- Join the escaped fields of one row with the `,` delimiter. -/
def rowChars : List (List Char) → List Char
  | [] => []
  | [f] => escapeField f
  | f :: fs => escapeField f ++ ',' :: rowChars fs

/-- One full CSV line: the joined fields followed by the `\r\n` terminator. -/
def lineChars (fs : List (List Char)) : List Char :=
  rowChars fs ++ ['\r', '\n']

/-- How `csv.DictWriter` renders an optional value: `None` becomes the empty
string, a string is written as-is. -/
def render : Option String → String
  | none => ""
  | some s => s

/-- The CSV row of one record: its rendered title/url/snippet triple. -/
def recordRow (r : JobRecord) : List (List Char) :=
  [(render r.title).toList, (render r.url).toList, (render r.snippet).toList]

/-- The header row written by `writer.writeheader()`. -/
def headerRow : List (List Char) :=
  ["title".toList, "url".toList, "snippet".toList]

/-- `save_csv(results, filename)`: the content written to the file — the
header line followed by one line per record. -/
def save_csv (results : List JobRecord) : List Char :=
  lineChars headerRow ++ results.flatMap fun r => lineChars (recordRow r)

/-! ### CSV reading

Modelled from the spec: the repository writes the CSV but never reads it
back (the attachment is raw bytes), while the spec's round-trip property
speaks of "reading it back (as plain rows)".  The reader below parses the
written format: rows terminated by `\r\n`, fields separated by `,`, a field
either unquoted (running to the next `,` or `\r`) or quoted (running to the
closing quote, with doubled quotes standing for a literal quote). -/

/-- Parse the remainder of a quoted field (the opening quote already
consumed): a doubled quote contributes a literal quote, a lone quote closes
the field.  Returns the field and the unconsumed rest, or `none` for an
unterminated quote. -/
def parseQuoted (acc : List Char) : List Char → Option (List Char × List Char)
  | [] => none
  | c :: rest =>
    if c = '"' then
      match rest with
      | [] => some (acc, [])
      | c2 :: rest2 =>
        if c2 = '"' then parseQuoted (acc ++ ['"']) rest2 else some (acc, rest)
    else parseQuoted (acc ++ [c]) rest

/-- Parse an unquoted field: consume up to the next `,` or `\r`. -/
def parseRaw : List Char → List Char × List Char
  | [] => ([], [])
  | c :: rest =>
    if c == ',' || c == '\r' then ([], c :: rest)
    else
      let p := parseRaw rest
      (c :: p.1, p.2)

/-- Parse one field, quoted or unquoted. -/
def parseField : List Char → Option (List Char × List Char)
  | [] => some ([], [])
  | c :: rest => if c = '"' then parseQuoted [] rest else some (parseRaw (c :: rest))

/-- Parse the comma-separated fields of one row up to and including its
`\r\n` terminator.  `fuel` bounds the number of fields. -/
def parseFieldsAux : Nat → List Char → Option (List (List Char) × List Char)
  | 0, _ => none
  | fuel + 1, input =>
    match parseField input with
    | none => none
    | some (f, rest) =>
      match rest with
      | ',' :: rest2 =>
        match parseFieldsAux fuel rest2 with
        | none => none
        | some (fs, r) => some (f :: fs, r)
      | '\r' :: '\n' :: rest2 => some ([f], rest2)
      | _ => none

/-- Parse all rows of a file.  `fuel` bounds the number of rows. -/
def parseRowsAux : Nat → List Char → Option (List (List (List Char)))
  | _, [] => some []
  | 0, _ => none
  | fuel + 1, input =>
    match parseFieldsAux (input.length + 1) input with
    | none => none
    | some (fs, rest) =>
      match parseRowsAux fuel rest with
      | none => none
      | some rows => some (fs :: rows)

/-- Read a whole CSV file back as plain rows of fields. -/
def parseCsv (input : List Char) : Option (List (List (List Char))) :=
  parseRowsAux (input.length + 1) input

/-- Whether the input continues with a field delimiter or a row terminator —
the shape of the unconsumed input after each field of a written row. -/
def sepHead : List Char → Bool
  | c :: _ => c == ',' || c == '\r'
  | [] => false

/-! ### Email body (`main`'s report composition) -/

/-- Python `str()` as applied by f-string interpolation to an optional
string: `None` renders as the literal text `None`. -/
def pyStr : Option String → String
  | none => "None"
  | some s => s

/-- One numbered line of the report body:
`f"{i}. {r.get('title')}\n   {r.get('url')}\n   {r.get('snippet')}\n"`. -/
def topLine (i : Nat) (r : JobRecord) : String :=
  toString i ++ ". " ++ pyStr r.title ++ "\n   " ++ pyStr r.url ++ "\n   " ++
    pyStr r.snippet ++ "\n"

/-- Python `"\n".join(...)`. -/
def joinLines : List String → String
  | [] => ""
  | [l] => l
  | l :: ls => l ++ "\n" ++ joinLines ls

/-- The body of the non-empty report email: a banner, a blank line, and the
numbered lines for the first 10 records (`enumerate(results[:10], start=1)`). -/
def reportBody (results : List JobRecord) : String :=
  "Daily Jobs Report — Entry-level Cloud/DevOps (AWS)\n\n" ++
    joinLines (((results.take 10).enumFrom 1).map fun p => topLine p.1 p.2)

/-! ### Configuration and the `main` pipeline -/

/-- The five required environment variables read at startup (each possibly
absent).  The optional SMTP host/port play no role in the control flow
modelled here. -/
structure Config where
  googleApiKey : Option String
  googleCseId : Option String
  recipient : Option String
  fromEmail : Option String
  smtpPass : Option String

/-- All five required values are truthy, the negation of
`not GOOGLE_API_KEY or not GOOGLE_CSE_ID or not RECIPIENT or not FROM_EMAIL or not SMTP_PASS`. -/
def configOk (cfg : Config) : Bool :=
  truthy cfg.googleApiKey && truthy cfg.googleCseId && truthy cfg.recipient &&
    truthy cfg.fromEmail && truthy cfg.smtpPass

/-- The `SystemExit` message for missing configuration. -/
def missingMsg : String :=
  "Missing required environment variables: GOOGLE_API_KEY, GOOGLE_CSE_ID, RECIPIENT_EMAIL, SMTP_USER, SMTP_PASS"

/-- An email as assembled by `send_email`: subject, plain-text body, and the
optional attachment path. -/
structure Email where
  subject : String
  body : String
  attachment : Option String
deriving DecidableEq

/-- One observable effect of a run: an outbound search request, a line
printed to standard output, the CSV file write, or an email send. -/
inductive Effect where
  | searchCall (query : String)
  | printLine (line : String)
  | writeCsv (filename : String) (content : List Char)
  | sendEmail (e : Email)
deriving DecidableEq

/-- The emails sent in a trace. -/
def emailsOf (tr : List Effect) : List Email :=
  tr.filterMap fun a => match a with | .sendEmail e => some e | _ => none

/-- The CSV writes performed in a trace. -/
def csvWritesOf (tr : List Effect) : List (String × List Char) :=
  tr.filterMap fun a => match a with | .writeCsv f c => some (f, c) | _ => none

/-- The fixed `QUERIES` list. -/
def QUERIES : List String :=
  ["(\"entry-level\" OR junior OR fresher) (cloud OR devops OR aws) jobs Chennai",
   "(\"cloud engineer\" OR \"devops engineer\") (jobs OR hiring) (\"Bengaluru\" OR \"Chennai\" OR \"Hyderabad\")",
   "(\"entry-level\" OR junior) (\"Cloud Engineer\" OR \"SRE\")"]

/-- One iteration of `main`'s per-query loop: issue the search call; on
success extend the accumulated records with `extract_results(data)`, on an
exception print `"Search error:"` with the message and contribute nothing. -/
def queryStep (search : String → Except String SearchJson)
    (acc : List JobRecord × List Effect) (q : String) :
    List JobRecord × List Effect :=
  match search q with
  | .ok data => (acc.1 ++ extract_results data, acc.2 ++ [.searchCall q])
  | .error e => (acc.1, acc.2 ++ [.searchCall q, .printLine ("Search error: " ++ e)])

/-- The per-query loop of `main`, accumulating `all_results` and the trace. -/
def runQueries (search : String → Except String SearchJson) (qs : List String) :
    List JobRecord × List Effect :=
  qs.foldl (queryStep search) ([], [])

/-- The records one query contributes: its extracted results on success,
nothing on failure. -/
def queryRecords (search : String → Except String SearchJson) (q : String) :
    List JobRecord :=
  match search q with
  | .ok data => extract_results data
  | .error _ => []

/-- The trace one query contributes: the outbound call, followed on failure
by the logged error line. -/
def queryTrace (search : String → Except String SearchJson) (q : String) :
    List Effect :=
  match search q with
  | .ok _ => [.searchCall q]
  | .error e => [.searchCall q, .printLine ("Search error: " ++ e)]

/-- The record accumulation and trace of the whole query loop over `QUERIES`. -/
def gather (search : String → Except String SearchJson) :
    List JobRecord × List Effect :=
  runQueries search QUERIES

/-- `main()`: abort with the missing-variables message unless all required
configuration is present; run the query loop; dedupe; then either send the
no-results email (no CSV), or write the CSV, send the report email with the
CSV attached, and print the confirmation.  `now` stands for
`utcnow().strftime("%Y-%m-%d %H:%M UTC")` and `today` for
`utcnow().strftime("%Y-%m-%d")`. -/
def mainRun (cfg : Config) (search : String → Except String SearchJson)
    (now today : String) : Except String (List Effect) :=
  if configOk cfg then
    if dedupe (gather search).1 = [] then
      .ok ((gather search).2 ++
        [.sendEmail ⟨"Daily Jobs Report — No Results",
                     "No results found on " ++ now, none⟩])
    else
      .ok ((gather search).2 ++
        [.writeCsv "daily_jobs_google.csv" (save_csv (dedupe (gather search).1)),
         .sendEmail ⟨"Daily Jobs Report — " ++ today ++ " (Google Search)",
                     reportBody (dedupe (gather search).1),
                     some "daily_jobs_google.csv"⟩,
         .printLine "Report sent."])
  else .error missingMsg

/-! ### Concrete sample data used by the witness theorems -/

/-- A sample record with url `"a"`. -/
def sampleA : JobRecord := ⟨some "t1", some "a", some "s1"⟩

/-- A sample record with url `"b"`. -/
def sampleB : JobRecord := ⟨some "t2", some "b", some "s2"⟩

/-- A sample record sharing url `"a"` with `sampleA` but differing elsewhere. -/
def sampleDup : JobRecord := ⟨some "other", some "a", some "x"⟩

/-- A sample record with an absent url. -/
def sampleNoUrl : JobRecord := ⟨some "t", none, some "s"⟩

/-- A sample record with an absent title. -/
def sampleNoTitle : JobRecord := ⟨none, some "u", some "s"⟩

/-- A complete configuration. -/
def sampleCfg : Config := ⟨some "k", some "c", some "r@x", some "f@x", some "p"⟩

/-- A configuration missing its search API key. -/
def badCfg : Config := ⟨none, some "c", some "r@x", some "f@x", some "p"⟩

/-- A search environment in which every request fails. -/
def failSearch : String → Except String SearchJson := fun _ => .error "boom"

/-- The first configured query. -/
def q0 : String :=
  "(\"entry-level\" OR junior OR fresher) (cloud OR devops OR aws) jobs Chennai"

/-- A search environment failing on the first configured query and returning
one item on the others. -/
def mixedSearch : String → Except String SearchJson := fun q =>
  if q = "(\"entry-level\" OR junior OR fresher) (cloud OR devops OR aws) jobs Chennai" then
    .error "boom"
  else .ok ⟨some [⟨some "T", some "http://a", some "S"⟩]⟩

/-! ### Lemmas about `dedupe` -/

theorem mem_of_mem_dedupeGo (rs : List JobRecord) (seen : List String)
    (r : JobRecord) (h : r ∈ dedupeGo seen rs) : r ∈ rs := by
  induction rs generalizing seen with
  | nil => simp [dedupeGo] at h
  | cons a rs ih =>
    cases ha : a.url with
    | none =>
      simp only [dedupeGo, ha] at h
      exact List.mem_cons_of_mem _ (ih _ h)
    | some k =>
      simp only [dedupeGo, ha] at h
      by_cases hg : k ≠ "" ∧ k ∉ seen
      · rw [if_pos hg] at h
        rcases List.mem_cons.mp h with h | h
        · exact h ▸ List.mem_cons_self _ _
        · exact List.mem_cons_of_mem _ (ih _ h)
      · rw [if_neg hg] at h
        exact List.mem_cons_of_mem _ (ih _ h)

theorem key_of_mem_dedupeGo (rs : List JobRecord) (seen : List String)
    (r : JobRecord) (h : r ∈ dedupeGo seen rs) :
    ∃ u, r.url = some u ∧ u ≠ "" ∧ u ∉ seen := by
  induction rs generalizing seen with
  | nil => simp [dedupeGo] at h
  | cons a rs ih =>
    cases ha : a.url with
    | none =>
      simp only [dedupeGo, ha] at h
      exact ih _ h
    | some k =>
      simp only [dedupeGo, ha] at h
      by_cases hg : k ≠ "" ∧ k ∉ seen
      · rw [if_pos hg] at h
        rcases List.mem_cons.mp h with h | h
        · exact ⟨k, h ▸ ha, hg.1, hg.2⟩
        · obtain ⟨u, hu, hne, hnotin⟩ := ih _ h
          exact ⟨u, hu, hne, fun hmem => hnotin (List.mem_cons_of_mem _ hmem)⟩
      · rw [if_neg hg] at h
        exact ih _ h

theorem pairwise_dedupeGo (rs : List JobRecord) (seen : List String) :
    (dedupeGo seen rs).Pairwise (fun a b => a.url ≠ b.url) := by
  induction rs generalizing seen with
  | nil => simp [dedupeGo]
  | cons a rs ih =>
    cases ha : a.url with
    | none => simpa only [dedupeGo, ha] using ih seen
    | some k =>
      by_cases hg : k ≠ "" ∧ k ∉ seen
      · simp only [dedupeGo, ha, if_pos hg]
        refine List.Pairwise.cons ?_ (ih (k :: seen))
        intro b hb
        obtain ⟨u, hu, _, hnotin⟩ := key_of_mem_dedupeGo _ _ _ hb
        rw [ha, hu]
        intro hcontra
        exact hnotin (Option.some.inj hcontra ▸ List.mem_cons_self _ _)
      · simpa only [dedupeGo, ha, if_neg hg] using ih seen

theorem ne_head_of_mem_dedupeGo (rs : List JobRecord) (seen : List String)
    (a r : JobRecord) (h : r ∈ dedupeGo seen rs)
    (hskip : a.url = none ∨ ∃ k, a.url = some k ∧ ¬(k ≠ "" ∧ k ∉ seen)) :
    r ≠ a := by
  obtain ⟨u, hu, hne, hnotin⟩ := key_of_mem_dedupeGo _ _ _ h
  intro hra
  subst hra
  rcases hskip with h0 | ⟨k, hk, hg⟩
  · rw [h0] at hu; exact Option.noConfusion hu
  · rw [hk] at hu
    obtain rfl : k = u := Option.some.inj hu
    exact hg ⟨hne, hnotin⟩

theorem order_dedupeGo (rs : List JobRecord) (seen : List String)
    (A B : JobRecord) (hA : A ∈ dedupeGo seen rs) (hB : B ∈ dedupeGo seen rs)
    (hurl : A.url ≠ B.url) (hlt : rs.indexOf A < rs.indexOf B) :
    (dedupeGo seen rs).indexOf A < (dedupeGo seen rs).indexOf B := by
  induction rs generalizing seen with
  | nil => simp [dedupeGo] at hA
  | cons a rs ih =>
    cases ha : a.url with
    | none =>
      have hskip : a.url = none ∨ ∃ k, a.url = some k ∧ ¬(k ≠ "" ∧ k ∉ seen) :=
        Or.inl ha
      simp only [dedupeGo, ha] at hA hB ⊢
      have hAa : A ≠ a := ne_head_of_mem_dedupeGo _ _ _ _ hA hskip
      have hBa : B ≠ a := ne_head_of_mem_dedupeGo _ _ _ _ hB hskip
      rw [List.indexOf_cons_ne _ (Ne.symm hAa), List.indexOf_cons_ne _ (Ne.symm hBa)] at hlt
      exact ih seen hA hB (Nat.lt_of_succ_lt_succ hlt)
    | some k =>
      by_cases hg : k ≠ "" ∧ k ∉ seen
      · simp only [dedupeGo, ha, if_pos hg] at hA hB ⊢
        by_cases hAa : A = a
        · subst hAa
          have hBa : B ≠ A := fun hBA => hurl (hBA ▸ rfl)
          rw [List.indexOf_cons_self]
          rw [List.indexOf_cons_ne _ (Ne.symm hBa)]
          exact Nat.succ_pos _
        · by_cases hBa : B = a
          · subst hBa
            rw [List.indexOf_cons_self] at hlt
            exact absurd hlt (Nat.not_lt_zero _)
          · have hA' : A ∈ dedupeGo (k :: seen) rs :=
              (List.mem_cons.mp hA).resolve_left hAa
            have hB' : B ∈ dedupeGo (k :: seen) rs :=
              (List.mem_cons.mp hB).resolve_left hBa
            rw [List.indexOf_cons_ne _ (Ne.symm hAa), List.indexOf_cons_ne _ (Ne.symm hBa)] at hlt ⊢
            exact Nat.succ_lt_succ (ih (k :: seen) hA' hB' (Nat.lt_of_succ_lt_succ hlt))
      · have hskip : a.url = none ∨ ∃ k', a.url = some k' ∧ ¬(k' ≠ "" ∧ k' ∉ seen) :=
          Or.inr ⟨k, ha, hg⟩
        simp only [dedupeGo, ha, if_neg hg] at hA hB ⊢
        have hAa : A ≠ a := ne_head_of_mem_dedupeGo _ _ _ _ hA hskip
        have hBa : B ≠ a := ne_head_of_mem_dedupeGo _ _ _ _ hB hskip
        rw [List.indexOf_cons_ne _ (Ne.symm hAa), List.indexOf_cons_ne _ (Ne.symm hBa)] at hlt
        exact ih seen hA hB (Nat.lt_of_succ_lt_succ hlt)

theorem dedupeGo_id_of_keys (l : List JobRecord) (seen : List String)
    (hkeys : ∀ r ∈ l, ∃ u, r.url = some u ∧ u ≠ "" ∧ u ∉ seen)
    (hpair : l.Pairwise (fun a b => a.url ≠ b.url)) :
    dedupeGo seen l = l := by
  induction l generalizing seen with
  | nil => rfl
  | cons a l ih =>
    obtain ⟨u, hu, hne, hnotin⟩ := hkeys a (List.mem_cons_self _ _)
    rw [List.pairwise_cons] at hpair
    simp only [dedupeGo, hu, if_pos (And.intro hne hnotin)]
    congr 1
    apply ih
    · intro r hr
      obtain ⟨v, hv, hvne, hvnotin⟩ := hkeys r (List.mem_cons_of_mem _ hr)
      refine ⟨v, hv, hvne, ?_⟩
      intro hmem
      rcases List.mem_cons.mp hmem with rfl | hmem'
      · exact (hpair.1 r hr) (by rw [hu, hv])
      · exact hvnotin hmem'
    · exact hpair.2

theorem dedupeGo_filter_eq (rs : List JobRecord) (seen : List String) (u : String)
    (A : JobRecord) (hne : u ≠ "") (hnotin : u ∉ seen)
    (hfind : rs.find? (fun r => r.url == some u) = some A) :
    (dedupeGo seen rs).filter (fun r => r.url == some u) = [A] := by
  induction rs generalizing seen with
  | nil => simp at hfind
  | cons a rs ih =>
    by_cases hp : a.url = some u
    · rw [List.find?_cons_of_pos _ (by simp [hp])] at hfind
      obtain rfl : a = A := Option.some.inj hfind
      simp only [dedupeGo, hp, if_pos (And.intro hne hnotin)]
      rw [List.filter_cons_of_pos (by simp [hp])]
      have hnil : (dedupeGo (u :: seen) rs).filter (fun r => r.url == some u) = [] := by
        rw [List.filter_eq_nil_iff]
        intro x hx
        obtain ⟨v, hv, _, hvnotin⟩ := key_of_mem_dedupeGo _ _ _ hx
        simp only [hv, beq_iff_eq, Option.some.injEq]
        intro hvu
        exact hvnotin (hvu ▸ List.mem_cons_self _ _)
      rw [hnil]
    · rw [List.find?_cons_of_neg _ (by simp [hp])] at hfind
      cases ha : a.url with
      | none =>
        simp only [dedupeGo, ha]
        exact ih seen hnotin hfind
      | some k =>
        have hku : k ≠ u := fun h => hp (h ▸ ha)
        by_cases hg : k ≠ "" ∧ k ∉ seen
        · simp only [dedupeGo, ha, if_pos hg]
          rw [List.filter_cons_of_neg (by simp [hp])]
          refine ih (k :: seen) ?_ hfind
          intro hmem
          rcases List.mem_cons.mp hmem with h | h
          · exact hku h.symm
          · exact hnotin h
        · simp only [dedupeGo, ha, if_neg hg]
          exact ih seen hnotin hfind

/-- C1: the deduplicated output contains no two records sharing a url
(so in particular no two sharing the same non-empty url), and for records
A and B with distinct urls both present in the output, their first
occurrences in the input and their positions in the output are ordered the
same way: first-occurrence order is preserved. -/
theorem dedupe_unique_and_order_C1 (xs : List JobRecord) :
    (dedupe xs).Pairwise (fun a b => a.url ≠ b.url) ∧
    ∀ A B : JobRecord, A ∈ dedupe xs → B ∈ dedupe xs → A.url ≠ B.url →
      xs.indexOf A < xs.indexOf B →
      (dedupe xs).indexOf A < (dedupe xs).indexOf B := by
  refine ⟨pairwise_dedupeGo xs [], ?_⟩
  intro A B hA hB hurl hlt
  exact order_dedupeGo xs [] A B hA hB hurl hlt

theorem dedupe_unique_and_order_C1_witness :
    sampleA ∈ dedupe [sampleA, sampleB] ∧ sampleB ∈ dedupe [sampleA, sampleB] ∧
    sampleA.url ≠ sampleB.url ∧
    [sampleA, sampleB].indexOf sampleA < [sampleA, sampleB].indexOf sampleB ∧
    (dedupe [sampleA, sampleB]).indexOf sampleA <
      (dedupe [sampleA, sampleB]).indexOf sampleB :=
  ⟨by decide, by decide, by decide, by decide,
   (dedupe_unique_and_order_C1 [sampleA, sampleB]).2 sampleA sampleB
     (by decide) (by decide) (by decide) (by decide)⟩

/-- C8: every record of the deduplicated output carries a non-empty url;
records whose url is absent or empty never appear in the output. -/
theorem dedupe_url_nonempty_C8 (xs : List JobRecord) (r : JobRecord)
    (h : r ∈ dedupe xs) : ∃ u, r.url = some u ∧ u ≠ "" := by
  obtain ⟨u, hu, hne, _⟩ := key_of_mem_dedupeGo xs [] r h
  exact ⟨u, hu, hne⟩

theorem dedupe_url_nonempty_C8_witness :
    sampleA ∈ dedupe [sampleA] ∧ ∃ u, sampleA.url = some u ∧ u ≠ "" :=
  ⟨by decide, dedupe_url_nonempty_C8 [sampleA] sampleA (by decide)⟩

/-- C9: `dedupe` is idempotent — applied to its own output it returns that
output unchanged. -/
theorem dedupe_idempotent_C9 (xs : List JobRecord) :
    dedupe (dedupe xs) = dedupe xs := by
  apply dedupeGo_id_of_keys
  · intro r hr
    obtain ⟨u, hu, hne, _⟩ := key_of_mem_dedupeGo xs [] r hr
    exact ⟨u, hu, hne, List.not_mem_nil u⟩
  · exact pairwise_dedupeGo xs []

/-- C2 counterexample: a record with an absent url appears once in the input
but zero times in `dedupe`'s output, so it is dropped, not kept. -/
theorem dedupe_keyless_dropped_counterexample_C2 :
    (dedupe [sampleNoUrl]).count sampleNoUrl ≠
      ([sampleNoUrl] : List JobRecord).count sampleNoUrl := by decide

/-- C2 (amended): every record whose url is absent or empty appears zero
times in the deduplicator's output — such records are always dropped, never
kept. -/
theorem dedupe_drops_keyless_C2 (xs : List JobRecord) (r : JobRecord)
    (h : r.url = none ∨ r.url = some "") : (dedupe xs).count r = 0 := by
  rw [List.count_eq_zero]
  intro hmem
  obtain ⟨u, hu, hne, _⟩ := key_of_mem_dedupeGo xs [] r hmem
  rcases h with h0 | h0
  · rw [h0] at hu; exact Option.noConfusion hu
  · rw [h0] at hu; exact hne (Option.some.inj hu).symm

theorem dedupe_drops_keyless_C2_witness :
    (sampleNoUrl.url = none ∨ sampleNoUrl.url = some "") ∧
    (dedupe [sampleNoUrl]).count sampleNoUrl = 0 :=
  ⟨by decide, dedupe_drops_keyless_C2 [sampleNoUrl] sampleNoUrl (by decide)⟩

/-- C7: whenever at least two input records share the same non-empty url,
the output contains exactly one record with that url, namely the first
occurrence in input order. -/
theorem dedupe_first_occurrence_C7 (xs : List JobRecord) (u : String)
    (hne : u ≠ "") (hcount : 2 ≤ xs.countP (fun r => r.url == some u)) :
    ∃ A, xs.find? (fun r => r.url == some u) = some A ∧
      (dedupe xs).filter (fun r => r.url == some u) = [A] ∧
      (dedupe xs).countP (fun r => r.url == some u) = 1 := by
  have hpos : 0 < xs.countP (fun r => r.url == some u) :=
    Nat.lt_of_lt_of_le (by norm_num) hcount
  rw [List.countP_pos_iff] at hpos
  obtain ⟨a, ha, hpa⟩ := hpos
  have hsome : (xs.find? (fun r => r.url == some u)).isSome :=
    List.find?_isSome.mpr ⟨a, ha, hpa⟩
  obtain ⟨A, hA⟩ := Option.isSome_iff_exists.mp hsome
  have hfil : (dedupe xs).filter (fun r => r.url == some u) = [A] :=
    dedupeGo_filter_eq xs [] u A hne (List.not_mem_nil u) hA
  refine ⟨A, hA, hfil, ?_⟩
  rw [List.countP_eq_length_filter, hfil]
  rfl

theorem dedupe_first_occurrence_C7_witness :
    ("a" ≠ "" ∧ 2 ≤ ([sampleA, sampleDup] : List JobRecord).countP
      (fun r => r.url == some "a")) ∧
    ∃ A, ([sampleA, sampleDup] : List JobRecord).find?
        (fun r => r.url == some "a") = some A ∧
      (dedupe [sampleA, sampleDup]).filter (fun r => r.url == some "a") = [A] ∧
      (dedupe [sampleA, sampleDup]).countP (fun r => r.url == some "a") = 1 :=
  ⟨by decide, dedupe_first_occurrence_C7 [sampleA, sampleDup] "a"
    (by decide) (by decide)⟩

/-! ### Lemmas about the query loop and `mainRun` -/

theorem foldl_queryStep (search : String → Except String SearchJson)
    (qs : List String) (acc : List JobRecord × List Effect) :
    qs.foldl (queryStep search) acc =
      (acc.1 ++ qs.flatMap (queryRecords search),
       acc.2 ++ qs.flatMap (queryTrace search)) := by
  induction qs generalizing acc with
  | nil => simp
  | cons q qs ih =>
    rw [List.foldl_cons, ih]
    cases hq : search q with
    | ok data => simp [queryStep, queryRecords, queryTrace, hq]
    | error e => simp [queryStep, queryRecords, queryTrace, hq]

theorem gather_eq (search : String → Except String SearchJson) :
    gather search =
      (QUERIES.flatMap (queryRecords search),
       QUERIES.flatMap (queryTrace search)) := by
  rw [gather, runQueries, foldl_queryStep]
  simp

theorem gather_trace_shape (search : String → Except String SearchJson)
    (a : Effect) (ha : a ∈ (gather search).2) :
    (∃ q, a = .searchCall q) ∨ ∃ l, a = .printLine l := by
  rw [gather_eq] at ha
  obtain ⟨q, _, hmem⟩ := List.mem_flatMap.mp ha
  unfold queryTrace at hmem
  cases hq : search q with
  | ok data =>
    rw [hq] at hmem
    simp at hmem
    exact Or.inl ⟨q, hmem⟩
  | error e =>
    rw [hq] at hmem
    simp at hmem
    rcases hmem with h | h
    · exact Or.inl ⟨q, h⟩
    · exact Or.inr ⟨_, h⟩

theorem gather_trace_no_email (search : String → Except String SearchJson) :
    emailsOf (gather search).2 = [] := by
  rw [emailsOf, List.filterMap_eq_nil_iff]
  intro a ha
  rcases gather_trace_shape search a ha with ⟨q, rfl⟩ | ⟨l, rfl⟩ <;> rfl

theorem gather_trace_no_csv (search : String → Except String SearchJson) :
    csvWritesOf (gather search).2 = [] := by
  rw [csvWritesOf, List.filterMap_eq_nil_iff]
  intro a ha
  rcases gather_trace_shape search a ha with ⟨q, rfl⟩ | ⟨l, rfl⟩ <;> rfl

theorem emailsOf_append (l1 l2 : List Effect) :
    emailsOf (l1 ++ l2) = emailsOf l1 ++ emailsOf l2 := by
  simp [emailsOf]

theorem csvWritesOf_append (l1 l2 : List Effect) :
    csvWritesOf (l1 ++ l2) = csvWritesOf l1 ++ csvWritesOf l2 := by
  simp [csvWritesOf]

theorem mainRun_ok_of_configOk (cfg : Config)
    (search : String → Except String SearchJson) (now today : String)
    (hcfg : configOk cfg = true) :
    ∃ tr, mainRun cfg search now today = .ok tr := by
  unfold mainRun
  rw [if_pos hcfg]
  by_cases h : dedupe (gather search).1 = []
  · rw [if_pos h]; exact ⟨_, rfl⟩
  · rw [if_neg h]; exact ⟨_, rfl⟩

/-- C5: a failing query (`search q` raises) is caught by the orchestrator:
it contributes zero records, the error is logged as a printed
`Search error:` line, the aggregate is still the concatenation over ALL
configured queries of their per-query contributions, and a valid-config run
still completes with a trace instead of aborting. -/
theorem per_query_failure_C5 (search : String → Except String SearchJson)
    (q e : String) (hq : q ∈ QUERIES) (he : search q = .error e) :
    queryRecords search q = [] ∧
    Effect.printLine ("Search error: " ++ e) ∈ (gather search).2 ∧
    (gather search).1 = QUERIES.flatMap (queryRecords search) ∧
    ∀ (cfg : Config) (now today : String), configOk cfg = true →
      ∃ tr, mainRun cfg search now today = .ok tr := by
  refine ⟨by simp [queryRecords, he], ?_, by rw [gather_eq], ?_⟩
  · rw [gather_eq]
    refine List.mem_flatMap.mpr ⟨q, hq, ?_⟩
    simp [queryTrace, he]
  · intro cfg now today hcfg
    exact mainRun_ok_of_configOk cfg search now today hcfg

theorem per_query_failure_C5_witness :
    (q0 ∈ QUERIES ∧ mixedSearch q0 = .error "boom") ∧
    queryRecords mixedSearch q0 = [] ∧
    Effect.printLine ("Search error: " ++ "boom") ∈ (gather mixedSearch).2 ∧
    (gather mixedSearch).1 = QUERIES.flatMap (queryRecords mixedSearch) ∧
    ∃ tr, mainRun sampleCfg mixedSearch "now" "today" = .ok tr := by
  have h := per_query_failure_C5 mixedSearch q0 "boom" (by decide) (by rfl)
  exact ⟨⟨by decide, by rfl⟩, h.1, h.2.1, h.2.2.1,
    h.2.2.2 sampleCfg "now" "today" (by decide)⟩

set_option maxRecDepth 8192 in
/-- C4: with any required configuration value missing, `main` aborts with
the missing-variables message whatever the search environment and clock —
the result is an error carrying no effect trace, so no network call, file
write or email happens — and the message names each required variable
(in particular every missing one). -/
theorem missing_config_aborts_C4 (cfg : Config) (h : configOk cfg = false) :
    (∀ (search : String → Except String SearchJson) (now today : String),
      mainRun cfg search now today = .error missingMsg) ∧
    "GOOGLE_API_KEY".toList <:+: missingMsg.toList ∧
    "GOOGLE_CSE_ID".toList <:+: missingMsg.toList ∧
    "RECIPIENT_EMAIL".toList <:+: missingMsg.toList ∧
    "SMTP_USER".toList <:+: missingMsg.toList ∧
    "SMTP_PASS".toList <:+: missingMsg.toList := by
  refine ⟨?_, by decide, by decide, by decide, by decide, by decide⟩
  intro search now today
  unfold mainRun
  rw [if_neg]
  simp [h]

theorem missing_config_aborts_C4_witness :
    configOk badCfg = false ∧
    mainRun badCfg failSearch "now" "today" = .error missingMsg :=
  ⟨by decide,
   (missing_config_aborts_C4 badCfg (by decide)).1 failSearch "now" "today"⟩

/-- C3: with complete configuration, whenever the deduplicated aggregate is
empty the run succeeds and its trace contains exactly one email — subject
`Daily Jobs Report — No Results` (containing "No Results"), body
`No results found on` followed by the UTC timestamp, and no attachment —
and contains no CSV write. -/
theorem empty_results_email_C3 (cfg : Config)
    (search : String → Except String SearchJson) (now today : String)
    (hcfg : configOk cfg = true) (hempty : dedupe (gather search).1 = []) :
    ∃ tr, mainRun cfg search now today = .ok tr ∧
      emailsOf tr = [⟨"Daily Jobs Report — No Results",
                      "No results found on " ++ now, none⟩] ∧
      csvWritesOf tr = [] ∧
      "No Results".toList <:+: "Daily Jobs Report — No Results".toList := by
  refine ⟨(gather search).2 ++
    [.sendEmail ⟨"Daily Jobs Report — No Results",
                 "No results found on " ++ now, none⟩], ?_, ?_, ?_, by decide⟩
  · unfold mainRun
    rw [if_pos hcfg, if_pos hempty]
  · rw [emailsOf_append, gather_trace_no_email]
    rfl
  · rw [csvWritesOf_append, gather_trace_no_csv]
    rfl

theorem empty_results_email_C3_witness :
    (configOk sampleCfg = true ∧ dedupe (gather failSearch).1 = []) ∧
    ∃ tr, mainRun sampleCfg failSearch "2025-01-01 00:00 UTC" "2025-01-01" = .ok tr ∧
      emailsOf tr = [⟨"Daily Jobs Report — No Results",
                      "No results found on " ++ "2025-01-01 00:00 UTC", none⟩] ∧
      csvWritesOf tr = [] ∧
      "No Results".toList <:+: "Daily Jobs Report — No Results".toList :=
  ⟨⟨by decide, by rfl⟩,
   empty_results_email_C3 sampleCfg failSearch "2025-01-01 00:00 UTC" "2025-01-01"
     (by decide) (by rfl)⟩

theorem mem_joinLines_within (l : String) (ls : List String) (h : l ∈ ls) :
    l.toList <:+: (joinLines ls).toList := by
  induction ls with
  | nil => cases h
  | cons a ls ih =>
    rcases List.mem_cons.mp h with rfl | h'
    · cases ls with
      | nil => exact List.infix_refl _
      | cons b ls' =>
        refine ⟨[], ("\n" ++ joinLines (b :: ls')).toList, ?_⟩
        simp [joinLines, String.toList, String.data_append]
    · cases ls with
      | nil => cases h'
      | cons b ls' =>
        refine (ih h').trans ⟨(a ++ "\n").toList, [], ?_⟩
        rw [List.append_nil]
        simp [joinLines, String.toList, String.data_append]

theorem toList_append (a b : String) :
    (a ++ b).toList = a.toList ++ b.toList :=
  String.data_append a b

theorem topLine_within_body (results : List JobRecord) (i : Nat) (r : JobRecord)
    (hmem : (i, r) ∈ (results.take 10).enumFrom 1) :
    (topLine i r).toList <:+: (reportBody results).toList := by
  have hline : topLine i r ∈
      ((results.take 10).enumFrom 1).map (fun p => topLine p.1 p.2) :=
    List.mem_map.mpr ⟨(i, r), hmem, rfl⟩
  have hsuf : (joinLines (((results.take 10).enumFrom 1).map
      fun p => topLine p.1 p.2)).toList <:+: (reportBody results).toList := by
    refine ⟨("Daily Jobs Report — Entry-level Cloud/DevOps (AWS)\n\n").toList, [], ?_⟩
    rw [List.append_nil, reportBody, toList_append]
  exact (mem_joinLines_within _ _ hline).trans hsuf

/-- C10: each of the first 10 deduplicated records is rendered in the email
body as its numbered line, and a record whose title, url or snippet is
absent has the literal text `None` interpolated into that line — while the
CSV writer renders the same absent field as the empty string. -/
theorem report_renders_none_C10 (results : List JobRecord) (i : Nat)
    (r : JobRecord) (hmem : (i, r) ∈ (results.take 10).enumFrom 1) :
    (topLine i r).toList <:+: (reportBody results).toList ∧
    (r.title = none →
      "None".toList <:+: (topLine i r).toList ∧ render r.title = "") ∧
    (r.url = none →
      "None".toList <:+: (topLine i r).toList ∧ render r.url = "") ∧
    (r.snippet = none →
      "None".toList <:+: (topLine i r).toList ∧ render r.snippet = "") := by
  refine ⟨topLine_within_body results i r hmem, ?_, ?_, ?_⟩
  · intro h
    refine ⟨⟨(toString i ++ ". ").toList,
      ("\n   " ++ pyStr r.url ++ "\n   " ++ pyStr r.snippet ++ "\n").toList, ?_⟩,
      by rw [h]; rfl⟩
    simp [topLine, pyStr, h, String.toList, String.data_append]
  · intro h
    refine ⟨⟨(toString i ++ ". " ++ pyStr r.title ++ "\n   ").toList,
      ("\n   " ++ pyStr r.snippet ++ "\n").toList, ?_⟩,
      by rw [h]; rfl⟩
    simp [topLine, pyStr, h, String.toList, String.data_append]
  · intro h
    refine ⟨⟨(toString i ++ ". " ++ pyStr r.title ++ "\n   " ++ pyStr r.url
        ++ "\n   ").toList, ("\n").toList, ?_⟩,
      by rw [h]; rfl⟩
    simp [topLine, pyStr, h, String.toList, String.data_append]

theorem report_renders_none_C10_witness :
    (1, sampleNoTitle) ∈ (([sampleNoTitle] : List JobRecord).take 10).enumFrom 1 ∧
    ((topLine 1 sampleNoTitle).toList <:+: (reportBody [sampleNoTitle]).toList ∧
    (sampleNoTitle.title = none →
      "None".toList <:+: (topLine 1 sampleNoTitle).toList ∧
        render sampleNoTitle.title = "") ∧
    (sampleNoTitle.url = none →
      "None".toList <:+: (topLine 1 sampleNoTitle).toList ∧
        render sampleNoTitle.url = "") ∧
    (sampleNoTitle.snippet = none →
      "None".toList <:+: (topLine 1 sampleNoTitle).toList ∧
        render sampleNoTitle.snippet = "")) :=
  ⟨by decide, report_renders_none_C10 [sampleNoTitle] 1 sampleNoTitle (by decide)⟩

/-! ### The CSV round trip -/

theorem parseRaw_append (f rest : List Char) (hf : needsQuote f = false)
    (hr : sepHead rest = true) : parseRaw (f ++ rest) = (f, rest) := by
  induction f with
  | nil =>
    cases rest with
    | nil => simp [sepHead] at hr
    | cons c rest2 =>
      simp only [sepHead] at hr
      simp [parseRaw, hr]
  | cons c f' ih =>
    simp only [needsQuote, List.any_cons, Bool.or_eq_false_iff] at hf
    have hc : (c == ',' || c == '\r') = false := by
      simp only [specialChar, Bool.or_eq_false_iff] at hf
      simp [hf.1.1.1.1, hf.1.1.2]
    have := ih (by simp [needsQuote, hf.2])
    simp [parseRaw, hc, this]

theorem parseQuoted_qq (acc X : List Char) :
    parseQuoted acc ('"' :: '"' :: X) = parseQuoted (acc ++ ['"']) X := rfl

theorem parseQuoted_close (acc : List Char) (c2 : Char) (X : List Char)
    (h : ¬(c2 = '"')) : parseQuoted acc ('"' :: c2 :: X) = some (acc, c2 :: X) := by
  rw [parseQuoted.eq_def]
  simp [h]

theorem parseQuoted_other (acc : List Char) (c : Char) (X : List Char)
    (h : ¬(c = '"')) : parseQuoted acc (c :: X) = parseQuoted (acc ++ [c]) X := by
  rw [parseQuoted.eq_def]
  simp [h]

theorem sepHead_not_quote (c : Char) (rest : List Char)
    (hr : sepHead (c :: rest) = true) : ¬(c = '"') := by
  simp only [sepHead] at hr
  rcases Bool.or_eq_true_iff.mp hr with h | h <;>
    simp only [beq_iff_eq] at h <;> simp [h]

theorem parseQuoted_append (f acc rest : List Char) (hr : sepHead rest = true) :
    parseQuoted acc (doubleQuotes f ++ '"' :: rest) = some (acc ++ f, rest) := by
  induction f generalizing acc with
  | nil =>
    cases rest with
    | nil => simp [sepHead] at hr
    | cons c2 rest2 =>
      rw [doubleQuotes, List.nil_append,
        parseQuoted_close acc c2 rest2 (sepHead_not_quote c2 rest2 hr)]
      simp
  | cons c f' ih =>
    by_cases hc : c = '"'
    · subst hc
      rw [doubleQuotes, if_pos rfl, List.cons_append, List.cons_append,
        parseQuoted_qq, ih (acc ++ ['"'])]
      simp
    · rw [doubleQuotes, if_neg hc, List.cons_append,
        parseQuoted_other acc c _ hc, ih (acc ++ [c])]
      simp

theorem parseField_append (f rest : List Char) (hr : sepHead rest = true) :
    parseField (escapeField f ++ rest) = some (f, rest) := by
  by_cases hq : needsQuote f = true
  · rw [escapeField, if_pos hq]
    have : ('"' :: (doubleQuotes f ++ ['"'])) ++ rest =
        '"' :: (doubleQuotes f ++ '"' :: rest) := by simp
    rw [this, parseField, if_pos rfl, parseQuoted_append f [] rest hr]
    simp
  · have hq' : needsQuote f = false := Bool.eq_false_iff.mpr hq
    rw [escapeField, if_neg (by simp [hq'])]
    cases f with
    | nil =>
      cases rest with
      | nil => simp [sepHead] at hr
      | cons c rest2 =>
        have hc : ¬(c = '"') := sepHead_not_quote c rest2 hr
        have hsep : (c == ',' || c == '\r') = true := by
          simpa [sepHead] using hr
        simp [parseField, hc, parseRaw, hsep]
    | cons c f' =>
      have hc : ¬(c = '"') := by
        simp only [needsQuote, List.any_cons, Bool.or_eq_false_iff] at hq'
        simp only [specialChar, Bool.or_eq_false_iff] at hq'
        intro h
        subst h
        simpa using hq'.1.1.1.2
      rw [List.cons_append, parseField, if_neg hc, ← List.cons_append,
        parseRaw_append (c :: f') rest hq' hr]

theorem rowChars_cons2 (f f2 : List Char) (fs : List (List Char)) :
    rowChars (f :: f2 :: fs) = escapeField f ++ ',' :: rowChars (f2 :: fs) := rfl

theorem rowChars_length (fs : List (List Char)) (h : fs ≠ []) :
    fs.length ≤ (rowChars fs).length + 1 := by
  induction fs with
  | nil => cases h rfl
  | cons f fs ih =>
    cases fs with
    | nil => simp
    | cons f2 fs' =>
      have h2 := ih (by simp)
      simp only [List.length_cons] at h2
      rw [rowChars_cons2]
      simp only [List.length_cons, List.length_append]
      omega

theorem parseFieldsAux_succ (fuel : Nat) (input : List Char) :
    parseFieldsAux (fuel + 1) input =
      match parseField input with
      | none => none
      | some (f, rest) =>
        match rest with
        | ',' :: rest2 =>
          match parseFieldsAux fuel rest2 with
          | none => none
          | some (fs, r) => some (f :: fs, r)
        | '\r' :: '\n' :: rest2 => some ([f], rest2)
        | _ => none := rfl

theorem parseFieldsAux_last (fuel : Nat) (input f rest : List Char)
    (hp : parseField input = some (f, '\r' :: '\n' :: rest)) :
    parseFieldsAux (fuel + 1) input = some ([f], rest) := by
  rw [parseFieldsAux_succ, hp]
  rfl

theorem parseFieldsAux_comma (fuel : Nat) (input f rest2 : List Char)
    (hp : parseField input = some (f, ',' :: rest2)) :
    parseFieldsAux (fuel + 1) input =
      match parseFieldsAux fuel rest2 with
      | none => none
      | some (fs, r) => some (f :: fs, r) := by
  rw [parseFieldsAux_succ, hp]
  rfl

theorem parseFields_row (fs : List (List Char)) (fuel : Nat) (rest : List Char)
    (hne : fs ≠ []) (hfuel : fs.length ≤ fuel) :
    parseFieldsAux fuel (rowChars fs ++ '\r' :: '\n' :: rest) = some (fs, rest) := by
  induction fs generalizing fuel with
  | nil => cases hne rfl
  | cons f fs' ih =>
    cases fuel with
    | zero => simp at hfuel
    | succ fuel =>
      cases fs' with
      | nil =>
        rw [show rowChars [f] = escapeField f from rfl]
        exact parseFieldsAux_last fuel _ f rest
          (parseField_append f ('\r' :: '\n' :: rest) (by simp [sepHead]))
      | cons f2 fs'' =>
        rw [rowChars_cons2, List.append_assoc, List.cons_append]
        have hp := parseField_append f
          (',' :: (rowChars (f2 :: fs'') ++ '\r' :: '\n' :: rest)) (by simp [sepHead])
        rw [parseFieldsAux_comma fuel _ f _ hp]
        have hih := ih fuel (by simp) (by simp at hfuel ⊢; omega)
        rw [hih]

theorem parseRowsAux_nil (fuel : Nat) : parseRowsAux fuel [] = some [] := by
  cases fuel <;> rfl

theorem parseRowsAux_step (fuel : Nat) (c : Char) (cs : List Char) :
    parseRowsAux (fuel + 1) (c :: cs) =
      match parseFieldsAux ((c :: cs).length + 1) (c :: cs) with
      | none => none
      | some (fs, rest) =>
        match parseRowsAux fuel rest with
        | none => none
        | some rows => some (fs :: rows) := by
  rw [parseRowsAux]
  simp

theorem lineChars_length (fs : List (List Char)) :
    2 ≤ (lineChars fs).length := by
  rw [lineChars]
  simp

theorem flatMap_lineChars_length (rows : List (List (List Char))) :
    rows.length ≤ (rows.flatMap lineChars).length := by
  induction rows with
  | nil => simp
  | cons row rows' ih =>
    rw [List.flatMap_cons]
    simp only [List.length_cons, List.length_append]
    have := lineChars_length row
    omega

theorem parseRows_flatMap (rows : List (List (List Char))) (fuel : Nat)
    (hne : ∀ row ∈ rows, row ≠ []) (hfuel : rows.length < fuel) :
    parseRowsAux fuel (rows.flatMap lineChars) = some rows := by
  induction rows generalizing fuel with
  | nil => rw [List.flatMap_nil]; exact parseRowsAux_nil fuel
  | cons row rows' ih =>
    cases fuel with
    | zero => simp at hfuel
    | succ fuel =>
      have hrow : row ≠ [] := hne row (List.mem_cons_self _ _)
      have hinput : (row :: rows').flatMap lineChars =
          rowChars row ++ '\r' :: '\n' :: rows'.flatMap lineChars := by
        rw [List.flatMap_cons, lineChars]
        simp
      obtain ⟨c, cs, hcc⟩ : ∃ c cs,
          rowChars row ++ '\r' :: '\n' :: rows'.flatMap lineChars = c :: cs := by
        cases hrc : rowChars row with
        | nil => exact ⟨'\r', '\n' :: rows'.flatMap lineChars, by simp⟩
        | cons c cs =>
          exact ⟨c, cs ++ '\r' :: '\n' :: rows'.flatMap lineChars, by simp⟩
      have hpf : parseFieldsAux ((c :: cs).length + 1) (c :: cs) =
          some (row, rows'.flatMap lineChars) := by
        rw [← hcc]
        refine parseFields_row row _ _ hrow ?_
        have h1 := rowChars_length row hrow
        simp only [List.length_append, List.length_cons]
        omega
      have hih := ih fuel (fun r hr => hne r (List.mem_cons_of_mem _ hr))
        (Nat.lt_of_succ_lt_succ hfuel)
      rw [hinput, hcc, parseRowsAux_step fuel c cs, hpf]
      simp [hih]

/-- C6: writing any sequence of JobRecords to CSV and reading the file back
as plain rows reproduces the header plus, in order, each record's rendered
title/url/snippet triple. -/
theorem csv_round_trip_C6 (rs : List JobRecord) :
    parseCsv (save_csv rs) = some (headerRow :: rs.map recordRow) := by
  have hsave : save_csv rs = (headerRow :: rs.map recordRow).flatMap lineChars := by
    rw [save_csv, List.flatMap_cons]
    congr 1
    rw [List.flatMap_map]
  rw [parseCsv, hsave]
  apply parseRows_flatMap
  · intro row hrow
    rcases List.mem_cons.mp hrow with rfl | hrow'
    · simp [headerRow]
    · obtain ⟨r, _, rfl⟩ := List.mem_map.mp hrow'
      simp [recordRow]
  · have := flatMap_lineChars_length (headerRow :: rs.map recordRow)
    omega
